import Mathlib

/-!
# Verification of the sequence / signature / block algebra of `snr.py`

Sequences (`Seq`) are modelled as `List ℚ` together with the source's
logical-length convention: a stored `[0]` has logical length 0, indexing
outside the logical range yields 0 (never an error), and index assignment
outside the logical range is a silent no-op.  Signatures (`Sig`) are
modelled by their wrapped coefficient list.  Blocks are a list of rows
with the two length parameters `l` and `L` of the source.  Fallible
operations (the three division operators, the inverse signature function,
and the trailing-zero popping loops that can raise `IndexError`) return
`Option`.  All coefficients are exact rationals, matching the exact
arithmetic the source works with.
-/

namespace SNR

/-! ## Definitions: the `Seq` ring -/

/-- Python `Seq.__len__`: the stored list `[0]` has logical length 0,
otherwise the logical length is the stored length. -/
def slen (s : List ℚ) : ℕ := if s.length = 1 ∧ s.headI = 0 then 0 else s.length

/-- Python `Seq.__getitem__` for an integer index: the stored value inside
the logical range, 0 outside it (including negative indices). -/
def sget (s : List ℚ) (i : ℤ) : ℚ :=
  if 0 ≤ i ∧ i < (slen s : ℤ) then s.getD i.toNat 0 else 0

/-- Structural-recursion form of `sget`, used to evaluate it on concrete
lists; proven equal to `sget` in `sget_eq_sgetL`. -/
def sgetL : List ℚ → ℤ → ℚ
  | [], _ => 0
  | c :: s, i => if i = 0 then c else if i < 0 then 0 else sgetL s (i - 1)

/-- Python `Seq.__setitem__`: writes only inside the logical range and
silently ignores out-of-range keys. -/
def sset (s : List ℚ) (k : ℤ) (v : ℚ) : List ℚ :=
  if 0 ≤ k ∧ k < (slen s : ℤ) then s.set k.toNat v else s

/-- Python `Seq.__add__`: elementwise sum over `range(max(len, len))`. -/
def sadd (a b : List ℚ) : List ℚ :=
  (List.range (max (slen a) (slen b))).map
    (fun k : ℕ => sget a (k : ℤ) + sget b (k : ℤ))

/-- Python `Seq.__mul__` (Cauchy product): result length
`len(a) + len(b) - 1`, coefficient `n` is `Σ_{k≤n} a[k]·b[n-k]`. -/
def smul (a b : List ℚ) : List ℚ :=
  (List.range (slen a + slen b - 1)).map
    (fun n : ℕ => ∑ k ∈ Finset.range (n + 1), sget a (k : ℤ) * sget b ((n : ℤ) - (k : ℤ)))

/-- Python `Seq.neg`: elementwise sign flip of the stored list. -/
def sneg (a : List ℚ) : List ℚ := a.map (fun c => -c)

/-- Python `Seq.__sub__` = `self + o.neg()`. -/
def ssub (a b : List ℚ) : List ℚ := sadd a (sneg b)

/-- Python `Seq.__pow__`: `out = Seq(1)`, then `power` times `out *= a`. -/
def spow (a : List ℚ) : ℕ → List ℚ
  | 0 => [1]
  | n + 1 => smul (spow a n) a

/-- Python `Seq.__eq__`: zero-padded coefficientwise equality over
`range(max(len(self), len(o)))`.  `Sig.__eq__` delegates to this. -/
def seqEq (a b : List ℚ) : Prop :=
  ∀ k < max (slen a) (slen b), sget a (k : ℤ) = sget b (k : ℤ)

instance (a b : List ℚ) : Decidable (seqEq a b) := by
  unfold seqEq; infer_instance

/-! ## Definitions: the signature function `Seq.f` and its inverse `Seq.i` -/

/-- State of the loop of `Seq.f` after the iterations `x = 1 .. n`:
`r` starts as `Seq([1])` and iteration `x` appends
`Σ_{k < len(self)} self[k] * r[x-k-1]` (read through the zero-padded
`__getitem__`, so negative indices contribute 0). -/
def fBuild (a : List ℚ) : ℕ → List ℚ
  | 0 => [1]
  | n + 1 =>
      fBuild a n ++
        [∑ k ∈ Finset.range (slen a),
          sget a (k : ℤ) * sget (fBuild a n) ((n : ℤ) - (k : ℤ))]

/-- Python `Seq.f(l)`: the loop runs for `x = 1 .. l-1`
(for `l ≤ 1` it returns just `Seq([1])`). -/
def seq_f (a : List ℚ) (l : ℕ) : List ℚ := fBuild a (l - 1)

/-- State of the loop of `Seq.i` after the iterations `x = 2 .. n+1`:
`r` starts as `Seq([a[1]])` and iteration `x` appends
`a[x] - Σ_{k=1}^{x-1} r[k-1]·a[x-k]`. -/
def iBuild (a : List ℚ) : ℕ → List ℚ
  | 0 => [sget a 1]
  | n + 1 =>
      iBuild a n ++
        [sget a ((n : ℤ) + 2) -
          ∑ j ∈ Finset.range (n + 1),
            sget (iBuild a n) (j : ℤ) * sget a ((n : ℤ) + 1 - (j : ℤ))]

/-- The list built by `Seq.i`'s loop, which runs for `x = 2 .. len(self)-1`. -/
def iRes (a : List ℚ) : List ℚ := iBuild a (slen a - 2)

/-- Python `Seq.i`: raises (`none`) unless the first coefficient is 1. -/
def seq_i (a : List ℚ) : Option (List ℚ) :=
  if sget a 0 = 1 then some (iRes a) else none

/-! ## Definitions: `Seq` division -/

/-- State of the loop of `Seq.__truediv__` after the iterations `x = 1 .. n`:
`r` starts as `Seq(self[0]/o[0])` and iteration `x` appends
`(self[x] - Σ_{k<x} r[k]·o[x-k]) / o[0]`. -/
def divBuild (a b : List ℚ) : ℕ → List ℚ
  | 0 => [sget a 0 / sget b 0]
  | n + 1 =>
      divBuild a b n ++
        [(sget a ((n : ℤ) + 1) -
          ∑ k ∈ Finset.range (n + 1),
            sget (divBuild a b n) (k : ℤ) * sget b ((n : ℤ) + 1 - (k : ℤ))) / sget b 0]

/-- The quotient list built by `Seq.__truediv__`'s loop, which runs for
`x = 1 .. max(len(self), len(o)) - 1`. -/
def divRes (a b : List ℚ) : List ℚ := divBuild a b (max (slen a) (slen b) - 1)

/-- Python `Seq.__truediv__`: every division performed is by `o[0]`, so the
source raises `ZeroDivisionError` exactly when the divisor's leading
coefficient is 0; modelled as `none`. -/
def seqDiv (a b : List ℚ) : Option (List ℚ) :=
  if sget b 0 = 0 then none else some (divRes a b)

/-! ## Definitions: the `Sig` near-ring -/

/-- The module-level shift sequence `x = Seq([0, 1])` of the source. -/
def xShift : List ℚ := [0, 1]

/-- State `(out, g)` of the loop of `Sig.__mul__` after `m` iterations:
starting from `out = Seq(0)`, `g = Seq(1)`, iteration `k` performs
`out += g * o[k]` and then `g *= aw`, where `aw = a * x`. -/
def sigMulLoop (aw B : List ℚ) : ℕ → List ℚ × List ℚ
  | 0 => ([0], [1])
  | m + 1 =>
      (sadd (sigMulLoop aw B m).1
        (smul (sigMulLoop aw B m).2 [sget B (m : ℤ)]),
       smul (sigMulLoop aw B m).2 aw)

/-- Python `Sig.__mul__` (signature convolution) acting on the wrapped
values: run the loop for `k = 0 .. len(o)-1`, then `out *= a`. -/
def sigMul (A B : List ℚ) : List ℚ :=
  smul (sigMulLoop (smul A xShift) B (slen B)).1 A

/-! ## Definitions: the `Sig` division operators -/

/-- The `while out[-1] == 0: out.pop(-1)` loop that both `Sig` division
operators run on their raw output list: it strips trailing zeros and
raises `IndexError` (modelled `none`) when the check `out[-1]` is made on
an empty list, i.e. when the list was empty or entirely zero. -/
def dropTrailingZeros (l : List ℚ) : Option (List ℚ) :=
  if ((l.reverse.dropWhile (fun c => c == 0)).reverse).isEmpty then none
  else some ((l.reverse.dropWhile (fun c => c == 0)).reverse)

/-- One iteration `x = m` of the loop of `Sig.__truediv__` on the state
`(out, ap, bp)`: `out.append(ap[x] / bp[x])`, `ap -= bp*out[x]`,
`bp *= x * a`.  The loop variable `x` shadows the module-level shift
sequence, so `x * a` is the signature convolution `Sig([x]) * a`.
Dividing by `bp[x] = 0` raises `ZeroDivisionError` (modelled `none`). -/
def sigTdStep (av : List ℚ) (m : ℕ) (st : List ℚ × List ℚ × List ℚ) :
    Option (List ℚ × List ℚ × List ℚ) :=
  if sget st.2.2 (m : ℤ) = 0 then none
  else
    some (st.1 ++ [sget st.2.1 (m : ℤ) / sget st.2.2 (m : ℤ)],
      ssub st.2.1 (smul st.2.2 [sget st.2.1 (m : ℤ) / sget st.2.2 (m : ℤ)]),
      smul st.2.2 (sigMul [(m : ℚ)] av))

/-- The loop of `Sig.__truediv__` after `m` iterations, starting from
`out = []`, `ap = Seq(self)`, `bp = Seq(a)`. -/
def sigTdLoop (selfv av : List ℚ) : ℕ → Option (List ℚ × List ℚ × List ℚ)
  | 0 => some ([], selfv, av)
  | m + 1 => (sigTdLoop selfv av m).bind (sigTdStep av m)

/-- Python `Sig.__truediv__`: run the loop for
`x = 0 .. max(len(self), len(a)) - 1`, then strip trailing zeros. -/
def sigTruediv (selfv av : List ℚ) : Option (List ℚ) :=
  match sigTdLoop selfv av (max (slen selfv) (slen av)) with
  | none => none
  | some (out, _, _) => dropTrailingZeros out

/-- Python list indexing `block[k]` inside `Sig.__floordiv__` (always in
range in the source's uses). -/
def bidx (bl : List (List ℚ)) (k : ℕ) : List ℚ := bl.getD k []

/-- Inner-loop body of `Sig.__floordiv__` for row `k`:
`block[k].append(Σ_t block[0][len(block[0])-t-1] * block[k-1][t])`. -/
def fdInnerStep (bl : List (List ℚ)) (k : ℕ) : List (List ℚ) :=
  bl.set k (bidx bl k ++
    [∑ t ∈ Finset.range (slen (bidx bl 0)),
      sget (bidx bl 0) ((slen (bidx bl 0) : ℤ) - (t : ℤ) - 1) *
        sget (bidx bl (k - 1)) (t : ℤ)])

/-- Outer-loop body of `Sig.__floordiv__` for `x`: compute
`v = (self[x] - Σ_{k=1}^{x} block[k][x-k]·b[k]) / b[0]`, append it to
`block[0]`, then update rows `1 .. l-1` in order. -/
def fdOuterStep (selfv bv : List ℚ) (l : ℕ) (bl : List (List ℚ)) (x : ℕ) :
    List (List ℚ) :=
  (List.range (l - 1)).foldl (fun b j => fdInnerStep b (j + 1))
    (bl.set 0 (bidx bl 0 ++
      [(sget selfv (x : ℤ) -
        ∑ k ∈ Finset.range x,
          sget (bidx bl (k + 1)) ((x : ℤ) - ((k : ℤ) + 1)) *
            sget bv ((k : ℤ) + 1)) / sget bv 0]))

/-- Python `Sig.__floordiv__`: `s = Seq([self[0] / b[0]])` divides by the
divisor's leading coefficient immediately (`ZeroDivisionError`, modelled
`none`, when it is 0); then the table `block = [s**(x+1) for x in range(l)]`
is built and extended column by column for `x = 1 .. l-1`, and the trailing
zeros of `block[0]` are stripped. -/
def sigFloordiv (selfv bv : List ℚ) : Option (List ℚ) :=
  if sget bv 0 = 0 then none
  else
    dropTrailingZeros (bidx
      ((List.range (max (slen selfv) (slen bv) - 1)).foldl
        (fun b x => fdOuterStep selfv bv (max (slen selfv) (slen bv)) b (x + 1))
        ((List.range (max (slen selfv) (slen bv))).map
          (fun x => spow [sget selfv 0 / sget bv 0] (x + 1))))
      0)

/-! ## Definitions: the `Block` matrix layer -/

/-- The default working length `std_l = 30` of the source. -/
def std_l : ℕ := 30

/-- A `Block`: a list of rows plus the two length parameters of the
source, `l` (target row count, default `std_l`) and `L` (the maximum
logical length of the rows, computed at construction time). -/
structure Block where
  rows : List (List ℚ)
  l : ℕ
  L : ℕ

/-- The `Block` constructor on a list of `Seq` rows with the default
`l = std_l`: `self.L = max([len(k) for k in val])`. -/
def mkBlock (rows : List (List ℚ)) : Block :=
  ⟨rows, std_l, (rows.map slen).foldr max 0⟩

/-- Python `Block.blank(l)`: `l` rows of `l` stored zeros. -/
def blockBlank (l : ℕ) : Block :=
  mkBlock (List.replicate l (List.replicate l 0))

/-- Python `Block.identity(l)`: start from `blank(l)` and perform
`out[n][n] = 1` for each `n` — each write goes through `Seq.__setitem__`,
so it is a silent no-op when the row's logical length is 0 (which happens
exactly for `l = 1`).  `L` keeps the value computed for the blank. -/
def blockIdentity (l : ℕ) : Block :=
  { blockBlank l with
    rows := (List.range l).map
      (fun n : ℕ => sset (List.replicate l 0) (n : ℤ) 1) }

/-- Row `n` of the power triangle: `out[-1] * d` iterated from `Seq([1])`. -/
def ptRow (d : List ℚ) : ℕ → List ℚ
  | 0 => [1]
  | n + 1 => smul (ptRow d n) d

/-- Python `Block.power(d, l)` with the default `taper=False`: rows
`Seq([1])`, `d`, `d²`, …; one initial row is present even for `l = 0`. -/
def blockPower (d : List ℚ) (l : ℕ) : Block :=
  mkBlock ((List.range (max 1 l)).map (ptRow d))

/-- Python `Block.__getitem__` for an integer index: the row when the
index is in range, else the zero sequence `Seq(0)`. -/
def bget (B : Block) (i : ℤ) : List ℚ :=
  if 0 ≤ i ∧ i < (B.rows.length : ℤ) then B.rows.getD i.toNat [] else [0]

/-- The mutation `out[x][y] = v` of the source: when row `x` exists the
row is updated through `Seq.__setitem__`; otherwise `__getitem__`
returned a temporary `Seq(0)` and the write is lost. -/
def bsetEntry (B : Block) (x : ℕ) (y : ℤ) (v : ℚ) : Block :=
  if x < B.rows.length then
    { B with rows := B.rows.set x (sset (B.rows.getD x []) y v) }
  else B

/-- Python `Block.__mul__` for two Blocks: a fresh
`max(self.l, other.l) × max(self.L, other.L)` zero block, filled for
`x, y < self.L` with `Σ_{k < self.L} self[x][k] * other[k][y]`
(numeric entries). -/
def blockMul (A B : Block) : Block :=
  (List.range A.L).foldl (fun Bx (x : ℕ) =>
    (List.range A.L).foldl (fun By (y : ℕ) =>
      bsetEntry By x (y : ℤ)
        (∑ k ∈ Finset.range A.L,
          sget (bget A (x : ℤ)) (k : ℤ) * sget (bget B (k : ℤ)) (y : ℤ)))
      Bx)
    (mkBlock (List.replicate (max A.l B.l) (List.replicate (max A.L B.L) 0)))

/-- `n` successive multiplications by `A` starting from the reconstructed
copy `Block(list(self.val))`, i.e. the `(n+1)`-fold matrix product. -/
def blockIter (A : Block) : ℕ → Block
  | 0 => mkBlock A.rows
  | n + 1 => blockMul (blockIter A n) A

/-- Python `Block.__pow__`: `power == 0` returns the identity of size
`len(self)`; otherwise `out = Block(list(self.val))` and then `power`
times `out = out * self`. -/
def blockPow (A : Block) (n : ℕ) : Block :=
  if n = 0 then blockIdentity A.rows.length
  else (List.range n).foldl (fun out _ => blockMul out A) (mkBlock A.rows)

/-- Python `Block.f(a, g)` (antidiagonal summation): `g_f = g.f(len(self))`,
`out = Seq([0]*len(self))`, and for each `n`,
`out[n] = Σ_{k=0}^{n} self[n-a*k][k] * g_f[n-a*k]` — the write goes
through `Seq.__setitem__`. -/
def blockF (B : Block) (a : ℕ) (g : List ℚ) : List ℚ :=
  (List.range B.rows.length).foldl
    (fun out (n : ℕ) => sset out (n : ℤ)
      (∑ k ∈ Finset.range (n + 1),
        sget (bget B ((n : ℤ) - (a : ℤ) * (k : ℤ))) (k : ℤ) *
          sget (seq_f g B.rows.length) ((n : ℤ) - (a : ℤ) * (k : ℤ))))
    (List.replicate B.rows.length 0)

/-! ## Lemmas: basic indexing -/

theorem slen_le_length (s : List ℚ) : slen s ≤ s.length := by
  unfold slen; split <;> omega

theorem slen_eq_zero_cases (s : List ℚ) (h : slen s ≠ s.length) : s = [0] := by
  unfold slen at h
  split at h
  · next hc =>
      obtain ⟨a, ha⟩ := List.length_eq_one.mp hc.1
      subst ha
      have : a = 0 := by simpa using hc.2
      rw [this]
  · exact absurd rfl h

theorem sget_zero_list (i : ℤ) : sget ([0] : List ℚ) i = 0 := by
  have h0 : slen ([0] : List ℚ) = 0 := by decide
  unfold sget
  rw [h0, if_neg (by norm_num)]

/-- `sget` can be computed from the stored length: the only case where
logical and stored length differ is `[0]`, whose sole entry is 0 anyway. -/
theorem sget_eq_length (s : List ℚ) (i : ℤ) :
    sget s i = if 0 ≤ i ∧ i < (s.length : ℤ) then s.getD i.toNat 0 else 0 := by
  by_cases h : slen s = s.length
  · simp [sget, h]
  · have hs : s = [0] := slen_eq_zero_cases s h
    subst hs
    rw [sget_zero_list]
    symm
    split
    · next hc =>
        have hl : ((([0] : List ℚ).length : ℤ)) = 1 := rfl
        have hi : i = 0 := by omega
        subst hi
        rfl
    · rfl

theorem sget_neg (s : List ℚ) (i : ℤ) (h : i < 0) : sget s i = 0 := by
  rw [sget_eq_length]
  rw [if_neg (by omega)]

theorem sget_nat (s : List ℚ) (n : ℕ) :
    sget s (n : ℤ) = if n < s.length then s.getD n 0 else 0 := by
  rw [sget_eq_length]
  by_cases h : n < s.length
  · rw [if_pos ⟨by omega, by omega⟩, if_pos h, Int.toNat_natCast]
  · rw [if_neg (by omega), if_neg h]

theorem sget_of_length_le (s : List ℚ) (n : ℕ) (h : s.length ≤ n) :
    sget s (n : ℤ) = 0 := by
  rw [sget_nat, if_neg (by omega)]

theorem sget_of_slen_le (s : List ℚ) (i : ℤ) (h : (slen s : ℤ) ≤ i) :
    sget s i = 0 := by
  unfold sget
  rw [if_neg (by omega)]

theorem sget_nil (i : ℤ) : sget [] i = 0 := by
  rw [sget_eq_length]
  simp

theorem sget_eq_sgetL (s : List ℚ) (i : ℤ) : sget s i = sgetL s i := by
  induction s generalizing i with
  | nil => rw [sget_nil]; rfl
  | cons c s ih =>
      rw [sget_eq_length, sgetL]
      by_cases h0 : i = 0
      · subst h0; simp
      · rw [if_neg h0]
        by_cases hneg : i < 0
        · rw [if_pos hneg, if_neg (by omega)]
        · rw [if_neg hneg, ← ih, sget_eq_length]
          by_cases hin : i - 1 < (s.length : ℤ)
          · rw [if_pos ⟨by omega, by simp; omega⟩, if_pos ⟨by omega, hin⟩]
            have h1 : i.toNat = (i - 1).toNat + 1 := by omega
            rw [h1]
            rfl
          · rw [if_neg (by simp; omega), if_neg (by omega)]

/-- Entry of a `map` over `List.range`. -/
theorem getD_map_range (M n : ℕ) (f : ℕ → ℚ) :
    ((List.range M).map f).getD n 0 = if n < M then f n else 0 := by
  by_cases h : n < M
  · rw [List.getD_eq_getElem _ _ (by simpa using h)]
    simp [h]
  · rw [List.getD_eq_default _ _ (by simpa using Nat.le_of_not_lt h)]
    simp [h]

theorem sget_map_range (M : ℕ) (f : ℕ → ℚ) (n : ℕ) :
    sget ((List.range M).map f) (n : ℤ) = if n < M then f n else 0 := by
  rw [sget_nat]
  by_cases h : n < M
  · rw [if_pos (by simpa using h), getD_map_range, if_pos h]
  · rw [if_neg (by simpa using h), if_neg h]

/-! ## Lemmas: coefficientwise descriptions of the ring operations -/

theorem sget_sadd (a b : List ℚ) (i : ℤ) :
    sget (sadd a b) i = sget a i + sget b i := by
  rcases lt_or_le i 0 with h | h
  · rw [sget_neg _ _ h, sget_neg _ _ h, sget_neg _ _ h]; ring
  · obtain ⟨n, rfl⟩ := Int.eq_ofNat_of_zero_le h
    unfold sadd
    rw [sget_map_range]
    by_cases hn : n < max (slen a) (slen b)
    · rw [if_pos hn]
    · rw [if_neg hn]
      rw [sget_of_slen_le a _ (by omega), sget_of_slen_le b _ (by omega)]
      ring

theorem sget_smul (a b : List ℚ) (n : ℕ) :
    sget (smul a b) (n : ℤ) =
      ∑ k ∈ Finset.range (n + 1), sget a (k : ℤ) * sget b ((n : ℤ) - (k : ℤ)) := by
  unfold smul
  rw [sget_map_range]
  by_cases hn : n < slen a + slen b - 1
  · rw [if_pos hn]
  · rw [if_neg hn]
    symm
    apply Finset.sum_eq_zero
    intro k hk
    rcases le_or_lt (slen a) k with hka | hka
    · rw [sget_of_slen_le a _ (by exact_mod_cast hka)]; ring
    · rw [sget_of_slen_le b ((n : ℤ) - (k : ℤ)) (by omega)]; ring

theorem sget_smul_neg (a b : List ℚ) (i : ℤ) (h : i < 0) :
    sget (smul a b) i = 0 := sget_neg _ _ h

theorem slen_sadd_le (a b : List ℚ) : slen (sadd a b) ≤ max (slen a) (slen b) := by
  calc slen (sadd a b) ≤ (sadd a b).length := slen_le_length _
  _ = max (slen a) (slen b) := by simp [sadd]

theorem slen_smul_le (a b : List ℚ) : slen (smul a b) ≤ slen a + slen b - 1 := by
  calc slen (smul a b) ≤ (smul a b).length := slen_le_length _
  _ = slen a + slen b - 1 := by simp [smul]

theorem seqEq_of_forall (a b : List ℚ)
    (h : ∀ k : ℕ, sget a (k : ℤ) = sget b (k : ℤ)) : seqEq a b :=
  fun k _ => h k

/-! ## Lemmas: the signature function and its inverse -/

theorem fBuild_length (a : List ℚ) (n : ℕ) : (fBuild a n).length = n + 1 := by
  induction n with
  | zero => rfl
  | succ n ih => simp [fBuild, ih]

theorem fBuild_getD_zero (a : List ℚ) (n : ℕ) : (fBuild a n).getD 0 0 = 1 := by
  induction n with
  | zero => rfl
  | succ n ih =>
      rw [fBuild, List.getD_append _ _ _ _ (by rw [fBuild_length]; omega)]
      exact ih

theorem slen_fBuild (a : List ℚ) (n : ℕ) : slen (fBuild a n) = n + 1 := by
  have hlen := fBuild_length a n
  have hhead : (fBuild a n).headI = 1 := by
    have hd := fBuild_getD_zero a n
    cases hfb : fBuild a n with
    | nil => rw [hfb] at hlen; simp at hlen
    | cons y ys => rw [hfb] at hd; simpa using hd
  unfold slen
  rw [hlen, hhead]
  split
  · next hc => exact absurd hc.2 (by norm_num)
  · rfl

theorem fBuild_getD_mono (a : List ℚ) {m n x : ℕ} (h : n ≤ m) (hx : x < n + 1) :
    (fBuild a m).getD x 0 = (fBuild a n).getD x 0 := by
  induction m with
  | zero =>
      have : n = 0 := by omega
      subst this; rfl
  | succ m ih =>
      rcases Nat.eq_or_lt_of_le h with rfl | hlt
      · rfl
      · rw [fBuild, List.getD_append _ _ _ _ (by rw [fBuild_length]; omega)]
        exact ih (by omega)

theorem sget_fBuild (a : List ℚ) (n x : ℕ) :
    sget (fBuild a n) (x : ℤ) =
      if x < n + 1 then (fBuild a n).getD x 0 else 0 := by
  rw [sget_nat, fBuild_length]

theorem sget_fBuild_mono (a : List ℚ) {m n : ℕ} (h : n ≤ m) (i : ℤ)
    (hi : i < (n : ℤ) + 1) :
    sget (fBuild a m) i = sget (fBuild a n) i := by
  rcases lt_or_le i 0 with hneg | hpos
  · rw [sget_neg _ _ hneg, sget_neg _ _ hneg]
  · obtain ⟨x, rfl⟩ := Int.eq_ofNat_of_zero_le hpos
    have hx : x < n + 1 := by omega
    rw [sget_fBuild, sget_fBuild, if_pos hx, if_pos (by omega),
      fBuild_getD_mono a h hx]

theorem sget_fBuild_zero (a : List ℚ) (n : ℕ) : sget (fBuild a n) 0 = 1 := by
  have hd := fBuild_getD_zero a n
  rw [show (0 : ℤ) = ((0 : ℕ) : ℤ) from rfl, sget_fBuild, if_pos (by omega)]
  exact hd

theorem sget_fBuild_rec (a : List ℚ) {n x : ℕ} (h1 : 1 ≤ x) (h2 : x ≤ n) :
    sget (fBuild a n) (x : ℤ) =
      ∑ k ∈ Finset.range (slen a),
        sget a (k : ℤ) * sget (fBuild a n) ((x : ℤ) - (k : ℤ) - 1) := by
  obtain ⟨y, rfl⟩ : ∃ y, x = y + 1 := ⟨x - 1, by omega⟩
  rw [sget_fBuild_mono a (show y + 1 ≤ n from h2) _ (by push_cast; omega)]
  rw [sget_fBuild, if_pos (by omega)]
  rw [show fBuild a (y + 1) = fBuild a y ++
        [∑ k ∈ Finset.range (slen a),
          sget a (k : ℤ) * sget (fBuild a y) ((y : ℤ) - (k : ℤ))] from rfl]
  rw [List.getD_append_right _ _ _ _ (by rw [fBuild_length])]
  rw [fBuild_length]
  simp only [Nat.sub_self, List.getD_cons_zero]
  apply Finset.sum_congr rfl
  intro k _
  congr 1
  have hc : ((y + 1 : ℕ) : ℤ) - (k : ℤ) - 1 = (y : ℤ) - (k : ℤ) := by push_cast; ring
  rw [hc]
  exact (sget_fBuild_mono a (show y ≤ n by omega) _ (by omega)).symm

theorem seq_f_length (a : List ℚ) (l : ℕ) (hl : 1 ≤ l) :
    (seq_f a l).length = l := by
  unfold seq_f; rw [fBuild_length]; omega

theorem sget_seq_f_zero (a : List ℚ) (l : ℕ) : sget (seq_f a l) 0 = 1 :=
  sget_fBuild_zero a (l - 1)

theorem seq_f_fib : seq_f [1, 1] 5 = [1, 1, 2, 3, 5] := by
  norm_num [seq_f, fBuild, slen, sget_eq_sgetL, sgetL, Finset.sum_range_succ]

/-- C1: for every sequence `a` and every length `l ≥ 1`, `Seq.f(a, l)`
returns a sequence `r` of exactly `l` coefficients with `r[0] = 1` and,
for `1 ≤ x < l`, `r[x] = Σ_{k=0}^{len(a)-1} a[k]·r[x-k-1]` (terms with
`x-k-1 < 0` contribute 0); in particular `Seq([1,1]).f(5) = [1,1,2,3,5]`. -/
theorem c1_signature_function (a : List ℚ) (l : ℕ) (hl : 1 ≤ l) :
    (seq_f a l).length = l ∧
    sget (seq_f a l) 0 = 1 ∧
    (∀ x : ℕ, 1 ≤ x → x < l →
      sget (seq_f a l) (x : ℤ) =
        ∑ k ∈ Finset.range (slen a),
          sget a (k : ℤ) * sget (seq_f a l) ((x : ℤ) - (k : ℤ) - 1)) ∧
    seq_f [1, 1] 5 = [1, 1, 2, 3, 5] := by
  refine ⟨seq_f_length a l hl, sget_seq_f_zero a l, ?_, seq_f_fib⟩
  intro x h1 h2
  exact sget_fBuild_rec a h1 (by omega)

/-- Witness for C1 at `a = [1,1]`, `l = 5`. -/
theorem c1_witness :
    (1 ≤ 5) ∧
    ((seq_f [1, 1] 5).length = 5 ∧
     sget (seq_f [1, 1] 5) 0 = 1 ∧
     (∀ x : ℕ, 1 ≤ x → x < 5 →
       sget (seq_f [1, 1] 5) (x : ℤ) =
         ∑ k ∈ Finset.range (slen [1, 1]),
           sget [1, 1] (k : ℤ) * sget (seq_f [1, 1] 5) ((x : ℤ) - (k : ℤ) - 1)) ∧
     seq_f [1, 1] 5 = [1, 1, 2, 3, 5]) :=
  ⟨by norm_num, c1_signature_function [1, 1] 5 (by norm_num)⟩

/-- C9: `Seq.f(a, l)` (for `l ≥ 1`) stores exactly `l` coefficients, its
first coefficient is 1, and hence `Seq.i` applied to its output never
raises the non-invertible error. -/
theorem c9_f_output_invertible (a : List ℚ) (l : ℕ) (hl : 1 ≤ l) :
    (seq_f a l).length = l ∧ sget (seq_f a l) 0 = 1 ∧
    (seq_i (seq_f a l)).isSome := by
  refine ⟨seq_f_length a l hl, sget_seq_f_zero a l, ?_⟩
  unfold seq_i
  rw [if_pos (sget_seq_f_zero a l)]
  rfl

/-- Witness for C9 at `a = [2,3]`, `l = 4`. -/
theorem c9_witness :
    (1 ≤ 4) ∧
    ((seq_f [2, 3] 4).length = 4 ∧ sget (seq_f [2, 3] 4) 0 = 1 ∧
     (seq_i (seq_f [2, 3] 4)).isSome) :=
  ⟨by norm_num, c9_f_output_invertible [2, 3] 4 (by norm_num)⟩

/-! ## Lemmas: sums over an initial segment -/

theorem sum_range_ext (f : ℕ → ℚ) {M N : ℕ} (h : M ≤ N)
    (h0 : ∀ k, M ≤ k → k < N → f k = 0) :
    ∑ k ∈ Finset.range N, f k = ∑ k ∈ Finset.range M, f k := by
  symm
  apply Finset.sum_subset (Finset.range_subset.mpr h)
  intro k hk hnk
  simp only [Finset.mem_range] at hk hnk
  exact h0 k (by omega) hk

theorem sum_range_pick (f : ℕ → ℚ) {m N : ℕ} (h : m + 1 ≤ N)
    (h0 : ∀ k, m + 1 ≤ k → k < N → f k = 0) :
    ∑ k ∈ Finset.range N, f k = (∑ k ∈ Finset.range m, f k) + f m := by
  rw [sum_range_ext f h h0, Finset.sum_range_succ]

/-! ## Lemmas: the inverse signature function -/

theorem iBuild_length (a : List ℚ) (n : ℕ) : (iBuild a n).length = n + 1 := by
  induction n with
  | zero => rfl
  | succ n ih => simp [iBuild, ih]

theorem iBuild_getD_zero (a : List ℚ) (n : ℕ) :
    (iBuild a n).getD 0 0 = sget a 1 := by
  induction n with
  | zero => rfl
  | succ n ih =>
      rw [iBuild, List.getD_append _ _ _ _ (by rw [iBuild_length]; omega)]
      exact ih

theorem iBuild_getD_mono (a : List ℚ) {m n x : ℕ} (h : n ≤ m) (hx : x < n + 1) :
    (iBuild a m).getD x 0 = (iBuild a n).getD x 0 := by
  induction m with
  | zero =>
      have : n = 0 := by omega
      subst this; rfl
  | succ m ih =>
      rcases Nat.eq_or_lt_of_le h with rfl | hlt
      · rfl
      · rw [iBuild, List.getD_append _ _ _ _ (by rw [iBuild_length]; omega)]
        exact ih (by omega)

theorem sget_iBuild (a : List ℚ) (n x : ℕ) :
    sget (iBuild a n) (x : ℤ) =
      if x < n + 1 then (iBuild a n).getD x 0 else 0 := by
  rw [sget_nat, iBuild_length]

theorem sget_iBuild_mono (a : List ℚ) {m n : ℕ} (h : n ≤ m) (i : ℤ)
    (hi : i < (n : ℤ) + 1) :
    sget (iBuild a m) i = sget (iBuild a n) i := by
  rcases lt_or_le i 0 with hneg | hpos
  · rw [sget_neg _ _ hneg, sget_neg _ _ hneg]
  · obtain ⟨x, rfl⟩ := Int.eq_ofNat_of_zero_le hpos
    have hx : x < n + 1 := by omega
    rw [sget_iBuild, sget_iBuild, if_pos hx, if_pos (by omega),
      iBuild_getD_mono a h hx]

theorem sget_iBuild_zero (a : List ℚ) (n : ℕ) :
    sget (iBuild a n) 0 = sget a 1 := by
  have hd := iBuild_getD_zero a n
  rw [show (0 : ℤ) = ((0 : ℕ) : ℤ) from rfl, sget_iBuild, if_pos (by omega)]
  exact hd

theorem sget_iBuild_succ (a : List ℚ) {n x : ℕ} (hx : x + 1 ≤ n) :
    sget (iBuild a n) ((x + 1 : ℕ) : ℤ) =
      sget a ((x : ℤ) + 2) -
        ∑ j ∈ Finset.range (x + 1),
          sget (iBuild a n) (j : ℤ) * sget a ((x : ℤ) + 1 - (j : ℤ)) := by
  rw [sget_iBuild_mono a (show x + 1 ≤ n from hx) _ (by push_cast; omega)]
  rw [sget_iBuild, if_pos (by omega)]
  rw [show iBuild a (x + 1) = iBuild a x ++
        [sget a ((x : ℤ) + 2) -
          ∑ j ∈ Finset.range (x + 1),
            sget (iBuild a x) (j : ℤ) * sget a ((x : ℤ) + 1 - (j : ℤ))] from rfl]
  rw [List.getD_append_right _ _ _ _ (by rw [iBuild_length])]
  rw [iBuild_length]
  simp only [Nat.sub_self, List.getD_cons_zero]
  congr 1
  apply Finset.sum_congr rfl
  intro j hj
  simp only [Finset.mem_range] at hj
  congr 1
  exact (sget_iBuild_mono a (show x ≤ n by omega) _ (by omega)).symm

theorem sget_seq_f_rec (a : List ℚ) {l x : ℕ} (h1 : 1 ≤ x) (h2 : x < l) :
    sget (seq_f a l) (x : ℤ) =
      ∑ k ∈ Finset.range (slen a),
        sget a (k : ℤ) * sget (seq_f a l) ((x : ℤ) - (k : ℤ) - 1) :=
  sget_fBuild_rec a h1 (by omega)

theorem slen_seq_f (a : List ℚ) (l : ℕ) (hl : 1 ≤ l) : slen (seq_f a l) = l := by
  unfold seq_f
  rw [slen_fBuild]
  omega

/-- `i ∘ f` is the identity on the common window: coefficient `j` of
`Seq.i(Seq.f(a, l))` equals `a[j]` for every `j < l - 1`. -/
theorem iRes_seq_f (a : List ℚ) (l : ℕ) (j : ℕ) (hj : j + 1 < l) :
    sget (iRes (seq_f a l)) (j : ℤ) = sget a (j : ℤ) := by
  induction j using Nat.strong_induction_on with
  | _ j IH =>
    have hl2 : 2 ≤ l := by omega
    have hslenF : slen (seq_f a l) = l := slen_seq_f a l (by omega)
    unfold iRes
    rw [hslenF]
    match j, hj with
    | 0, hj =>
        rw [show ((0 : ℕ) : ℤ) = (0 : ℤ) from rfl, sget_iBuild_zero]
        rw [show (1 : ℤ) = ((1 : ℕ) : ℤ) from rfl,
          sget_seq_f_rec a (le_refl 1) (show 1 < l by omega)]
        rcases Nat.eq_zero_or_pos (slen a) with h0 | hpos
        · rw [h0, sget_of_slen_le a 0 (by omega)]
          simp
        · rw [Finset.sum_eq_single 0]
          · rw [show ((1 : ℕ) : ℤ) - ((0 : ℕ) : ℤ) - 1 = (0 : ℤ) by norm_num,
              sget_seq_f_zero, mul_one, Nat.cast_zero]
          · intro k hk hk0
            rw [sget_neg (seq_f a l) _ (by omega), mul_zero]
          · intro hk
            exact absurd (Finset.mem_range.mpr hpos) hk
    | n + 1, hj =>
        rw [sget_iBuild_succ (seq_f a l) (show n + 1 ≤ l - 2 by omega)]
        have hrec := sget_seq_f_rec a (show 1 ≤ n + 2 by omega)
          (show n + 2 < l by omega)
        have hcast : ((n + 2 : ℕ) : ℤ) = (n : ℤ) + 2 := by push_cast; ring
        rw [hcast] at hrec
        rw [hrec]
        have hIH : ∀ k : ℕ, k < n + 1 →
            sget (iBuild (seq_f a l) (l - 2)) (k : ℤ) = sget a (k : ℤ) := by
          intro k hk
          have h := IH k (by omega) (by omega)
          unfold iRes at h
          rw [hslenF] at h
          exact h
        have hsub : ∑ k ∈ Finset.range (n + 1),
              sget (iBuild (seq_f a l) (l - 2)) (k : ℤ) *
                sget (seq_f a l) ((n : ℤ) + 1 - (k : ℤ)) =
            ∑ k ∈ Finset.range (n + 1),
              sget a (k : ℤ) * sget (seq_f a l) ((n : ℤ) + 1 - (k : ℤ)) :=
          Finset.sum_congr rfl (fun k hk => by
            rw [hIH k (Finset.mem_range.mp hk)])
        rw [hsub]
        have hsum1 : ∑ k ∈ Finset.range (slen a),
              sget a (k : ℤ) * sget (seq_f a l) ((n : ℤ) + 2 - (k : ℤ) - 1) =
            ∑ k ∈ Finset.range (slen a),
              sget a (k : ℤ) * sget (seq_f a l) ((n : ℤ) + 1 - (k : ℤ)) :=
          Finset.sum_congr rfl (fun k _ => by
            have h : (n : ℤ) + 2 - (k : ℤ) - 1 = (n : ℤ) + 1 - (k : ℤ) := by ring
            rw [h])
        rw [hsum1]
        have hext : ∑ k ∈ Finset.range (max (slen a) (n + 2)),
              sget a (k : ℤ) * sget (seq_f a l) ((n : ℤ) + 1 - (k : ℤ)) =
            ∑ k ∈ Finset.range (slen a),
              sget a (k : ℤ) * sget (seq_f a l) ((n : ℤ) + 1 - (k : ℤ)) := by
          apply sum_range_ext _ (le_max_left _ _)
          intro k hk _
          show sget a (k : ℤ) * sget (seq_f a l) ((n : ℤ) + 1 - (k : ℤ)) = 0
          rw [sget_of_slen_le a _ (by exact_mod_cast hk), zero_mul]
        have hpick : ∑ k ∈ Finset.range (max (slen a) (n + 2)),
              sget a (k : ℤ) * sget (seq_f a l) ((n : ℤ) + 1 - (k : ℤ)) =
            (∑ k ∈ Finset.range (n + 1),
              sget a (k : ℤ) * sget (seq_f a l) ((n : ℤ) + 1 - (k : ℤ))) +
              sget a ((n + 1 : ℕ) : ℤ) *
                sget (seq_f a l) ((n : ℤ) + 1 - ((n + 1 : ℕ) : ℤ)) := by
          apply sum_range_pick _ (by omega)
          intro k hk _
          show sget a (k : ℤ) * sget (seq_f a l) ((n : ℤ) + 1 - (k : ℤ)) = 0
          rw [sget_neg (seq_f a l) _ (by omega), mul_zero]
        have hlast : sget a ((n + 1 : ℕ) : ℤ) *
            sget (seq_f a l) ((n : ℤ) + 1 - ((n + 1 : ℕ) : ℤ)) =
            sget a ((n + 1 : ℕ) : ℤ) := by
          rw [show (n : ℤ) + 1 - ((n + 1 : ℕ) : ℤ) = 0 by push_cast; ring,
            sget_seq_f_zero, mul_one]
        rw [← hext, hpick, hlast]
        ring

/-- The defining recurrence of `Seq.i` rearranged: for `1 ≤ x < len(a)`
(and `a[0] = 1`), `a[x] = Σ_{j<x} i(a)[j]·a[x-1-j]`. -/
theorem iRes_key (a : List ℚ) (ha : sget a 0 = 1) {x : ℕ} (h1 : 1 ≤ x)
    (hx : x < slen a) :
    sget a (x : ℤ) =
      ∑ j ∈ Finset.range x, sget (iRes a) (j : ℤ) * sget a ((x : ℤ) - 1 - (j : ℤ)) := by
  match x, h1, hx with
  | 1, _, hx =>
      rw [Finset.sum_range_one]
      unfold iRes
      rw [show ((0 : ℕ) : ℤ) = (0 : ℤ) from rfl, sget_iBuild_zero]
      rw [show ((1 : ℕ) : ℤ) - 1 - (0 : ℤ) = (0 : ℤ) by norm_num, ha, mul_one,
        Nat.cast_one]
  | n + 2, _, hx =>
      have hn : n + 1 ≤ slen a - 2 := by omega
      have hdef := sget_iBuild_succ a hn
      rw [Finset.sum_range_succ]
      rw [show ((n + 2 : ℕ) : ℤ) - 1 - ((n + 1 : ℕ) : ℤ) = 0 by push_cast; ring,
        ha, mul_one]
      unfold iRes
      rw [hdef]
      have hsame : ∑ j ∈ Finset.range (n + 1),
            sget (iBuild a (slen a - 2)) (j : ℤ) *
              sget a (((n + 2 : ℕ) : ℤ) - 1 - (j : ℤ)) =
          ∑ j ∈ Finset.range (n + 1),
            sget (iBuild a (slen a - 2)) (j : ℤ) *
              sget a ((n : ℤ) + 1 - (j : ℤ)) :=
        Finset.sum_congr rfl (fun j _ => by
          have h : ((n + 2 : ℕ) : ℤ) - 1 - (j : ℤ) = (n : ℤ) + 1 - (j : ℤ) := by
            push_cast; ring
          rw [h])
      rw [hsame, show ((n + 2 : ℕ) : ℤ) = (n : ℤ) + 2 by push_cast; ring]
      ring

/-- `f ∘ i` is the identity on the common window: coefficient `x` of
`Seq.f(Seq.i(a), l)` equals `a[x]` for `x < min(l, len(a))`, provided
`a[0] = 1`. -/
theorem seq_f_iRes (a : List ℚ) (ha : sget a 0 = 1) (l : ℕ) (x : ℕ)
    (hxl : x < l) (hxa : x < slen a) :
    sget (seq_f (iRes a) l) (x : ℤ) = sget a (x : ℤ) := by
  induction x using Nat.strong_induction_on with
  | _ x IH =>
    match x, hxl, hxa with
    | 0, _, _ =>
        rw [Nat.cast_zero, sget_seq_f_zero (iRes a) l, ha]
    | x' + 1, hxl, hxa =>
        rw [sget_seq_f_rec (iRes a) (show 1 ≤ x' + 1 by omega) hxl]
        have hterm : ∀ k : ℕ,
            sget (iRes a) (k : ℤ) *
              sget (seq_f (iRes a) l) (((x' + 1 : ℕ) : ℤ) - (k : ℤ) - 1) =
            sget (iRes a) (k : ℤ) * sget a (((x' + 1 : ℕ) : ℤ) - (k : ℤ) - 1) := by
          intro k
          rcases le_or_lt (k : ℤ) (x' : ℤ) with hk | hk
          · have hidx : ((x' + 1 : ℕ) : ℤ) - (k : ℤ) - 1 = ((x' - k : ℕ) : ℤ) := by
              omega
            rw [hidx, IH (x' - k) (by omega) (by omega) (by omega)]
          · have hneg : ((x' + 1 : ℕ) : ℤ) - (k : ℤ) - 1 < 0 := by omega
            rw [sget_neg _ _ hneg, sget_neg a _ hneg]
        rw [Finset.sum_congr rfl (fun k _ => hterm k)]
        have hstep1 : ∑ k ∈ Finset.range (slen (iRes a)),
              sget (iRes a) (k : ℤ) * sget a (((x' + 1 : ℕ) : ℤ) - (k : ℤ) - 1) =
            ∑ k ∈ Finset.range (max (slen (iRes a)) (x' + 1)),
              sget (iRes a) (k : ℤ) * sget a (((x' + 1 : ℕ) : ℤ) - (k : ℤ) - 1) :=
          (sum_range_ext _ (le_max_left _ _) (fun k hk _ => by
            show sget (iRes a) (k : ℤ) * _ = 0
            rw [sget_of_slen_le (iRes a) _ (by exact_mod_cast hk), zero_mul])).symm
        have hstep2 : ∑ k ∈ Finset.range (max (slen (iRes a)) (x' + 1)),
              sget (iRes a) (k : ℤ) * sget a (((x' + 1 : ℕ) : ℤ) - (k : ℤ) - 1) =
            ∑ k ∈ Finset.range (x' + 1),
              sget (iRes a) (k : ℤ) * sget a (((x' + 1 : ℕ) : ℤ) - (k : ℤ) - 1) :=
          sum_range_ext _ (le_max_right _ _) (fun k hk _ => by
            show _ * sget a (((x' + 1 : ℕ) : ℤ) - (k : ℤ) - 1) = 0
            rw [sget_neg a _ (by omega), mul_zero])
        rw [hstep1, hstep2]
        rw [Finset.sum_congr rfl (fun k _ => by
          have h : ((x' + 1 : ℕ) : ℤ) - (k : ℤ) - 1 =
              ((x' + 1 : ℕ) : ℤ) - 1 - (k : ℤ) := by ring
          rw [h])]
        exact (iRes_key a ha (show 1 ≤ x' + 1 by omega) hxa).symm

/-- C3: for every sequence `a` with `a[0] = 1`, the inverse signature
function is a two-sided inverse of the signature function over the
overlapping truncation window: `i(f(a))` agrees with `a` on indices
`j < l - 1` and `f(i(a))` agrees with `a` on indices `x < min(l, len(a))`,
comparing zero-padded coefficients; moreover `i` succeeds on such inputs. -/
theorem c3_inverse_law (a : List ℚ) (l : ℕ) (ha : sget a 0 = 1) :
    seq_i a = some (iRes a) ∧
    seq_i (seq_f a l) = some (iRes (seq_f a l)) ∧
    (∀ j : ℕ, j + 1 < l → sget (iRes (seq_f a l)) (j : ℤ) = sget a (j : ℤ)) ∧
    (∀ x : ℕ, x < l → x < slen a →
      sget (seq_f (iRes a) l) (x : ℤ) = sget a (x : ℤ)) := by
  refine ⟨?_, ?_, fun j hj => iRes_seq_f a l j hj,
    fun x h1 h2 => seq_f_iRes a ha l x h1 h2⟩
  · unfold seq_i; rw [if_pos ha]
  · unfold seq_i; rw [if_pos (sget_seq_f_zero a l)]

/-- Witness for C3 at `a = [1,2,3]`, `l = 5`, indices `j = 1` and `x = 2`. -/
theorem c3_witness :
    (sget [1, 2, 3] 0 = 1) ∧
    sget (iRes (seq_f [1, 2, 3] 5)) ((1 : ℕ) : ℤ) = sget [1, 2, 3] ((1 : ℕ) : ℤ) ∧
    sget (seq_f (iRes [1, 2, 3]) 5) ((2 : ℕ) : ℤ) = sget [1, 2, 3] ((2 : ℕ) : ℤ) := by
  have ha : sget ([1, 2, 3] : List ℚ) 0 = 1 := by
    norm_num [sget_eq_sgetL, sgetL]
  refine ⟨ha, ?_, ?_⟩
  · exact (c3_inverse_law [1, 2, 3] 5 ha).2.2.1 1 (by norm_num)
  · exact (c3_inverse_law [1, 2, 3] 5 ha).2.2.2 2 (by norm_num)
      (by norm_num [slen])

/-! ## Lemmas: `Seq` division -/

theorem divBuild_length (a b : List ℚ) (n : ℕ) :
    (divBuild a b n).length = n + 1 := by
  induction n with
  | zero => rfl
  | succ n ih => simp [divBuild, ih]

theorem divBuild_getD_zero (a b : List ℚ) (n : ℕ) :
    (divBuild a b n).getD 0 0 = sget a 0 / sget b 0 := by
  induction n with
  | zero => rfl
  | succ n ih =>
      rw [divBuild, List.getD_append _ _ _ _ (by rw [divBuild_length]; omega)]
      exact ih

theorem divBuild_getD_mono (a b : List ℚ) {m n x : ℕ} (h : n ≤ m) (hx : x < n + 1) :
    (divBuild a b m).getD x 0 = (divBuild a b n).getD x 0 := by
  induction m with
  | zero =>
      have : n = 0 := by omega
      subst this; rfl
  | succ m ih =>
      rcases Nat.eq_or_lt_of_le h with rfl | hlt
      · rfl
      · rw [divBuild, List.getD_append _ _ _ _ (by rw [divBuild_length]; omega)]
        exact ih (by omega)

theorem sget_divBuild (a b : List ℚ) (n x : ℕ) :
    sget (divBuild a b n) (x : ℤ) =
      if x < n + 1 then (divBuild a b n).getD x 0 else 0 := by
  rw [sget_nat, divBuild_length]

theorem sget_divBuild_mono (a b : List ℚ) {m n : ℕ} (h : n ≤ m) (i : ℤ)
    (hi : i < (n : ℤ) + 1) :
    sget (divBuild a b m) i = sget (divBuild a b n) i := by
  rcases lt_or_le i 0 with hneg | hpos
  · rw [sget_neg _ _ hneg, sget_neg _ _ hneg]
  · obtain ⟨x, rfl⟩ := Int.eq_ofNat_of_zero_le hpos
    have hx : x < n + 1 := by omega
    rw [sget_divBuild, sget_divBuild, if_pos hx, if_pos (by omega),
      divBuild_getD_mono a b h hx]

theorem sget_divBuild_zero (a b : List ℚ) (n : ℕ) :
    sget (divBuild a b n) 0 = sget a 0 / sget b 0 := by
  have hd := divBuild_getD_zero a b n
  rw [show (0 : ℤ) = ((0 : ℕ) : ℤ) from rfl, sget_divBuild, if_pos (by omega)]
  exact hd

theorem sget_divBuild_succ (a b : List ℚ) {n x : ℕ} (hx : x + 1 ≤ n) :
    sget (divBuild a b n) ((x + 1 : ℕ) : ℤ) =
      (sget a ((x : ℤ) + 1) -
        ∑ k ∈ Finset.range (x + 1),
          sget (divBuild a b n) (k : ℤ) * sget b ((x : ℤ) + 1 - (k : ℤ))) /
        sget b 0 := by
  rw [sget_divBuild_mono a b (show x + 1 ≤ n from hx) _ (by push_cast; omega)]
  rw [sget_divBuild, if_pos (by omega)]
  rw [show divBuild a b (x + 1) = divBuild a b x ++
        [(sget a ((x : ℤ) + 1) -
          ∑ k ∈ Finset.range (x + 1),
            sget (divBuild a b x) (k : ℤ) * sget b ((x : ℤ) + 1 - (k : ℤ))) /
          sget b 0] from rfl]
  rw [List.getD_append_right _ _ _ _ (by rw [divBuild_length])]
  rw [divBuild_length]
  simp only [Nat.sub_self, List.getD_cons_zero]
  congr 2
  apply Finset.sum_congr rfl
  intro j hj
  simp only [Finset.mem_range] at hj
  congr 1
  exact (sget_divBuild_mono a b (show x ≤ n by omega) _ (by omega)).symm

/-- C5: for all sequences `a` and `b` with `b[0] ≠ 0`, `(a / b) * b`
agrees with `a` on every coefficient inside the computed quotient's
window `max(len(a), len(b))` (and the division itself succeeds). -/
theorem c5_division_round_trip (a b : List ℚ) (hb : sget b 0 ≠ 0) :
    seqDiv a b = some (divRes a b) ∧
    ∀ n : ℕ, n < max (slen a) (slen b) →
      sget (smul (divRes a b) b) (n : ℤ) = sget a (n : ℤ) := by
  constructor
  · unfold seqDiv
    rw [if_neg hb]
  · intro n hn
    unfold divRes
    match n with
    | 0 =>
        rw [sget_smul, Finset.sum_range_one]
        rw [show ((0 : ℕ) : ℤ) = (0 : ℤ) from rfl, sub_zero,
          sget_divBuild_zero, div_mul_cancel₀ _ hb]
    | m + 1 =>
        rw [sget_smul, Finset.sum_range_succ]
        have hc : ((m + 1 : ℕ) : ℤ) = (m : ℤ) + 1 := by push_cast; ring
        rw [hc]
        rw [show (m : ℤ) + 1 - ((m : ℤ) + 1) = 0 by ring]
        have hentry := sget_divBuild_succ a b
          (show m + 1 ≤ max (slen a) (slen b) - 1 by omega)
        rw [hc] at hentry
        rw [hentry, div_mul_cancel₀ _ hb]
        ring

/-- Witness for C5 at `a = [1,1]`, `b = [2,1]`, coefficient `n = 1`. -/
theorem c5_witness :
    (sget [2, 1] 0 ≠ 0) ∧
    seqDiv [1, 1] [2, 1] = some (divRes [1, 1] [2, 1]) ∧
    sget (smul (divRes [1, 1] [2, 1]) [2, 1]) ((1 : ℕ) : ℤ) =
      sget [1, 1] ((1 : ℕ) : ℤ) := by
  have hb : sget ([2, 1] : List ℚ) 0 ≠ 0 := by
    norm_num [sget_eq_sgetL, sgetL]
  refine ⟨hb, (c5_division_round_trip [1, 1] [2, 1] hb).1, ?_⟩
  exact (c5_division_round_trip [1, 1] [2, 1] hb).2 1 (by norm_num [slen])

/-! ## Lemmas: the `Sig` near-ring identity -/

theorem sget_single (c : ℚ) (i : ℤ) : sget [c] i = if i = 0 then c else 0 := by
  rw [sget_eq_sgetL]
  simp only [sgetL]
  by_cases h : i = 0
  · simp [h]
  · rw [if_neg h, if_neg h]
    split <;> rfl

theorem slen_one_list : slen ([1] : List ℚ) = 1 := by norm_num [slen]

theorem sget_smul_one_left (A : List ℚ) (n : ℕ) :
    sget (smul [1] A) (n : ℤ) = sget A (n : ℤ) := by
  rw [sget_smul, Finset.sum_eq_single 0]
  · rw [show ((0 : ℕ) : ℤ) = (0 : ℤ) from rfl, sget_single, if_pos rfl,
      one_mul, sub_zero]
  · intro k hk hk0
    rw [sget_single, if_neg (by omega), zero_mul]
  · intro h
    exact absurd (Finset.mem_range.mpr (by omega)) h

theorem sget_smul_one_right (u : List ℚ) (n : ℕ) :
    sget (smul u [1]) (n : ℤ) = sget u (n : ℤ) := by
  rw [sget_smul, Finset.sum_eq_single n]
  · rw [sub_self, sget_single, if_pos rfl, mul_one]
  · intro k hk hkn
    simp only [Finset.mem_range] at hk
    rw [sget_single, if_neg (by omega), mul_zero]
  · intro h
    exact absurd (Finset.mem_range.mpr (by omega)) h

theorem sigMul_one_right (A : List ℚ) (n : ℕ) :
    sget (sigMul A [1]) (n : ℤ) = sget A (n : ℤ) := by
  unfold sigMul
  rw [slen_one_list]
  have hout : ∀ i : ℤ,
      sget (sigMulLoop (smul A xShift) [1] 1).1 i = sget [1] i := by
    intro i
    have h1 : (sigMulLoop (smul A xShift) [1] 1).1 =
        sadd [0] (smul [1] [sget [1] ((0 : ℕ) : ℤ)]) := rfl
    rw [h1, sget_sadd, sget_zero_list, zero_add]
    rcases lt_or_le i 0 with hneg | hpos
    · rw [sget_neg _ _ hneg, sget_neg _ _ hneg]
    · obtain ⟨j, rfl⟩ := Int.eq_ofNat_of_zero_le hpos
      rw [sget_smul_one_left]
      rw [show sget [1] ((0 : ℕ) : ℤ) = 1 by rw [sget_single]; norm_num]
  rw [sget_smul]
  rw [Finset.sum_congr rfl (fun k _ => by rw [hout (k : ℤ)])]
  rw [← sget_smul [1] A n, sget_smul_one_left]

theorem sget_basis (m : ℕ) (i : ℤ) :
    sget (List.replicate m (0 : ℚ) ++ [1]) i = if i = (m : ℤ) then 1 else 0 := by
  have hlen : (List.replicate m (0 : ℚ) ++ [1]).length = m + 1 := by simp
  rcases lt_or_le i 0 with hneg | hpos
  · rw [sget_neg _ _ hneg, if_neg (by omega)]
  · obtain ⟨j, rfl⟩ := Int.eq_ofNat_of_zero_le hpos
    rw [sget_nat, hlen]
    rcases lt_trichotomy j m with hj | hj | hj
    · rw [if_pos (by omega), if_neg (by omega),
        List.getD_append _ _ _ _ (by simp [hj])]
      rw [List.getD_eq_getElem _ _ (by simpa using hj)]
      simp
    · subst hj
      rw [if_pos (by omega), if_pos rfl,
        List.getD_append_right _ _ _ _ (by simp)]
      simp
    · rw [if_neg (by omega), if_neg (by omega)]

theorem smul_shift_basis (m : ℕ) :
    smul (List.replicate m (0 : ℚ) ++ [1]) xShift =
      List.replicate (m + 1) (0 : ℚ) ++ [1] := by
  have hslen : slen (List.replicate m (0 : ℚ) ++ [1]) = m + 1 := by
    unfold slen
    rcases Nat.eq_zero_or_pos m with rfl | hm
    · norm_num
    · rw [if_neg]
      · simp
      · intro hc
        simp at hc
        omega
  have hshift : slen xShift = 2 := by norm_num [slen, xShift]
  have hsget_shift : ∀ i : ℤ, sget xShift i = if i = 1 then 1 else 0 := by
    intro i
    rw [show xShift = List.replicate 1 (0 : ℚ) ++ [1] from rfl, sget_basis]
    norm_num
  apply List.ext_getElem
  · simp [smul, hslen, hshift]
  · intro n h1 h2
    have hn : n < m + 2 := by
      simpa [smul, hslen, hshift] using h1
    have hmap : (smul (List.replicate m (0 : ℚ) ++ [1]) xShift).getD n 0 =
        ∑ k ∈ Finset.range (n + 1),
          sget (List.replicate m (0 : ℚ) ++ [1]) (k : ℤ) *
            sget xShift ((n : ℤ) - (k : ℤ)) := by
      unfold smul
      rw [getD_map_range, if_pos (by rw [hslen, hshift]; omega)]
    have hval : ∑ k ∈ Finset.range (n + 1),
        sget (List.replicate m (0 : ℚ) ++ [1]) (k : ℤ) *
          sget xShift ((n : ℤ) - (k : ℤ)) =
        if n = m + 1 then 1 else 0 := by
      rcases le_or_lt m n with hm | hm
      · rw [Finset.sum_eq_single m]
        · rw [sget_basis, if_pos rfl, one_mul, hsget_shift]
          by_cases h : n = m + 1
          · rw [if_pos (by omega), if_pos h]
          · rw [if_neg (by omega), if_neg h]
        · intro k hk hkm
          rw [sget_basis, if_neg (by omega), zero_mul]
        · intro h
          exact absurd (Finset.mem_range.mpr (by omega)) h
      · rw [if_neg (by omega)]
        apply Finset.sum_eq_zero
        intro k hk
        simp only [Finset.mem_range] at hk
        rw [sget_basis, if_neg (by omega), zero_mul]
    have hrhs : (List.replicate (m + 1) (0 : ℚ) ++ [1]).getD n 0 =
        if n = m + 1 then 1 else 0 := by
      rcases lt_trichotomy n (m + 1) with hn1 | hn1 | hn1
      · rw [if_neg (by omega), List.getD_append _ _ _ _ (by simp [hn1]),
          List.getD_eq_getElem _ _ (by simpa using hn1)]
        simp
      · subst hn1
        rw [if_pos rfl, List.getD_append_right _ _ _ _ (by simp)]
        simp
      · omega
    rw [← List.getD_eq_getElem _ _ h1, ← List.getD_eq_getElem _ _ h2,
      hmap, hval, hrhs]

theorem sget_smul_basis_single (m : ℕ) (c : ℚ) (j : ℕ) :
    sget (smul (List.replicate m (0 : ℚ) ++ [1]) [c]) (j : ℤ) =
      if j = m then c else 0 := by
  rw [sget_smul]
  rcases le_or_lt m j with hm | hm
  · rw [Finset.sum_eq_single m]
    · rw [sget_basis, if_pos rfl, one_mul, sget_single]
      by_cases h : j = m
      · rw [if_pos (by omega), if_pos h]
      · rw [if_neg (by omega), if_neg h]
    · intro k hk hkm
      rw [sget_basis, if_neg (by omega), zero_mul]
    · intro h
      exact absurd (Finset.mem_range.mpr (by omega)) h
  · rw [if_neg (by omega)]
    apply Finset.sum_eq_zero
    intro k hk
    simp only [Finset.mem_range] at hk
    rw [sget_basis, if_neg (by omega), zero_mul]

theorem sigMulLoop_shift (B : List ℚ) (m : ℕ) :
    (sigMulLoop xShift B m).2 = List.replicate m (0 : ℚ) ++ [1] ∧
    ∀ j : ℕ, sget (sigMulLoop xShift B m).1 (j : ℤ) =
      if j < m then sget B (j : ℤ) else 0 := by
  induction m with
  | zero =>
      refine ⟨rfl, fun j => ?_⟩
      rw [show (sigMulLoop xShift B 0).1 = [0] from rfl, sget_zero_list,
        if_neg (by omega)]
  | succ m ih =>
      refine ⟨?_, fun j => ?_⟩
      · show smul (sigMulLoop xShift B m).2 xShift = _
        rw [ih.1, smul_shift_basis]
      · show sget (sadd (sigMulLoop xShift B m).1
            (smul (sigMulLoop xShift B m).2 [sget B (m : ℤ)])) (j : ℤ) = _
        rw [sget_sadd, ih.2 j, ih.1, sget_smul_basis_single]
        by_cases h1 : j < m
        · rw [if_pos h1, if_neg (by omega), if_pos (by omega), add_zero]
        · by_cases h2 : j = m
          · subst h2
            rw [if_neg (by omega), if_pos rfl, if_pos (by omega), zero_add]
          · rw [if_neg h1, if_neg h2, if_neg (by omega), add_zero]

theorem sigMul_one_left (A : List ℚ) (n : ℕ) :
    sget (sigMul [1] A) (n : ℤ) = sget A (n : ℤ) := by
  unfold sigMul
  have haw : smul [1] xShift = xShift := by
    have h := smul_shift_basis 0
    simpa using h
  rw [haw, sget_smul_one_right, (sigMulLoop_shift A (slen A)).2 n]
  by_cases h : n < slen A
  · rw [if_pos h]
  · rw [if_neg h, sget_of_slen_le A _ (by omega)]

/-- C6: `Signature(1)` is a two-sided multiplicative identity for
signature convolution: for every Signature `A`, `A * Signature(1) == A`
and `Signature(1) * A == A` (`==` is the zero-padded `Seq.__eq__` that
`Sig.__eq__` delegates to). -/
theorem c6_sig_identity (A : List ℚ) :
    seqEq (sigMul A [1]) A ∧ seqEq (sigMul [1] A) A :=
  ⟨seqEq_of_forall _ _ (fun n => sigMul_one_right A n),
   seqEq_of_forall _ _ (fun n => sigMul_one_left A n)⟩

/-! ## Lemmas: the `Sig` division operators -/

theorem slen_zero_list : slen ([0] : List ℚ) = 0 := by decide

theorem sigMul_zero_left (w : List ℚ) : sigMul [0] w = [] := by
  unfold sigMul
  have haw : smul [(0 : ℚ)] xShift = [0] := by
    norm_num [smul, slen, xShift, sget_eq_sgetL, sgetL, Finset.sum_range_succ,
      List.range_succ, List.range_zero]
  rw [haw]
  have hinv : ∀ m, slen (sigMulLoop [0] w m).1 ≤ 1 ∧
      slen (sigMulLoop [0] w m).2 ≤ 1 := by
    intro m
    induction m with
    | zero =>
        constructor
        · rw [show (sigMulLoop [(0 : ℚ)] w 0).1 = [0] from rfl, slen_zero_list]
          omega
        · rw [show (sigMulLoop [(0 : ℚ)] w 0).2 = [1] from rfl, slen_one_list]
    | succ m ih =>
        constructor
        · show slen (sadd (sigMulLoop [0] w m).1
            (smul (sigMulLoop [0] w m).2 [sget w (m : ℤ)])) ≤ 1
          have h2 : slen (smul (sigMulLoop [0] w m).2 [sget w (m : ℤ)]) ≤ 1 := by
            have ha := slen_smul_le (sigMulLoop [0] w m).2 [sget w (m : ℤ)]
            have hc : slen [sget w (m : ℤ)] ≤ 1 :=
              le_trans (slen_le_length _) (by simp)
            have hg := ih.2
            omega
          have h1 := ih.1
          have hs := slen_sadd_le (sigMulLoop [0] w m).1
            (smul (sigMulLoop [0] w m).2 [sget w (m : ℤ)])
          omega
        · show slen (smul (sigMulLoop [0] w m).2 [(0 : ℚ)]) ≤ 1
          have ha := slen_smul_le (sigMulLoop [0] w m).2 [(0 : ℚ)]
          have hg := ih.2
          rw [slen_zero_list] at ha
          omega
  have hout := (hinv (slen w)).1
  unfold smul
  rw [slen_zero_list]
  rw [show slen (sigMulLoop [(0 : ℚ)] w (slen w)).1 + 0 - 1 = 0 by omega]
  rfl

theorem seqDiv_zero_head (a b : List ℚ) (hb : sget b 0 = 0) :
    seqDiv a b = none := by
  unfold seqDiv
  rw [if_pos hb]

theorem sigFloordiv_zero_head (a b : List ℚ) (hb : sget b 0 = 0) :
    sigFloordiv a b = none := by
  unfold sigFloordiv
  rw [if_pos hb]

theorem sigTdLoop_none_mono (A B : List ℚ) {m : ℕ}
    (h : sigTdLoop A B m = none) (k : ℕ) : sigTdLoop A B (m + k) = none := by
  induction k with
  | zero => exact h
  | succ k ih =>
      show (sigTdLoop A B (m + k)).bind (sigTdStep B (m + k)) = none
      rw [ih]
      rfl

theorem sigTdLoop_one (A B : List ℚ) :
    sigTdLoop A B 1 = sigTdStep B 0 ([], A, B) := rfl

theorem sigTruediv_zero_head (A B : List ℚ) (hb : sget B 0 = 0) :
    sigTruediv A B = none := by
  unfold sigTruediv
  rcases Nat.eq_zero_or_pos (max (slen A) (slen B)) with h0 | hpos
  · rw [h0]
    rfl
  · obtain ⟨m, hm⟩ : ∃ m, max (slen A) (slen B) = 1 + m :=
      ⟨max (slen A) (slen B) - 1, by omega⟩
    have h1 : sigTdLoop A B 1 = none := by
      rw [sigTdLoop_one]
      unfold sigTdStep
      rw [if_pos (by rwa [Nat.cast_zero])]
    rw [hm, sigTdLoop_none_mono A B h1 m]

theorem sigTruediv_crash (A B : List ℚ) (h2 : 2 ≤ max (slen A) (slen B)) :
    sigTruediv A B = none := by
  by_cases hb : sget B 0 = 0
  · exact sigTruediv_zero_head A B hb
  · unfold sigTruediv
    obtain ⟨k, hk⟩ : ∃ k, max (slen A) (slen B) = 2 + k :=
      ⟨max (slen A) (slen B) - 2, by omega⟩
    have e2 : sigTdLoop A B 2 = none := by
      have e1 : sigTdLoop A B 1 =
          some ([sget A ((0 : ℕ) : ℤ) / sget B ((0 : ℕ) : ℤ)],
            ssub A (smul B [sget A ((0 : ℕ) : ℤ) / sget B ((0 : ℕ) : ℤ)]),
            smul B (sigMul [((0 : ℕ) : ℚ)] B)) := by
        rw [sigTdLoop_one]
        unfold sigTdStep
        rw [if_neg (by rwa [Nat.cast_zero])]
        rfl
      have hbp : sget (smul B (sigMul [((0 : ℕ) : ℚ)] B)) ((1 : ℕ) : ℤ) = 0 := by
        rw [show ([((0 : ℕ) : ℚ)] : List ℚ) = [0] by norm_num, sigMul_zero_left,
          sget_smul]
        apply Finset.sum_eq_zero
        intro t ht
        rw [sget_nil, mul_zero]
      show (sigTdLoop A B 1).bind (sigTdStep B 1) = none
      rw [e1, Option.some_bind]
      unfold sigTdStep
      rw [if_pos hbp]
    rw [hk, sigTdLoop_none_mono A B e2 k]

theorem dropTrailingZeros_single (v : ℚ) (hv : v ≠ 0) :
    dropTrailingZeros [v] = some [v] := by
  have hbeq : (v == 0) = false := beq_eq_false_iff_ne.mpr hv
  unfold dropTrailingZeros
  simp [List.dropWhile, hbeq]

/-- Counterexample to C4 as stated: the divisor `Sig([1])` has nonzero
leading coefficient, yet `Sig([1,1]) / Sig([1])` raises
`ZeroDivisionError` (the loop variable `x` shadows the shift sequence, so
`bp` is zeroed out after the first iteration), so no quotient satisfying
`(A / B) * B = A` is produced. -/
theorem c4_counterexample :
    sget [1] 0 ≠ 0 ∧ sigTruediv [1, 1] [1] = none := by
  constructor
  · norm_num [sget_eq_sgetL, sgetL]
  · exact sigTruediv_crash [1, 1] [1] (by norm_num [slen])

/-- C4 (amended): `Sig.__truediv__` succeeds only when both operands have
logical length at most 1; on that domain, with both leading coefficients
nonzero, the quotient is `[A[0]/B[0]]` and `(A / B) * B = A` holds under
ordinary Sequence (Cauchy) multiplication.  For operands of maximal
logical length at least 2 the operation always raises
`ZeroDivisionError` (modelled `none`), because the loop variable `x`
shadows the module-level shift sequence `x = Seq([0,1])`. -/
theorem c4_amended (A B : List ℚ) :
    (slen A ≤ 1 → slen B ≤ 1 → sget A 0 ≠ 0 → sget B 0 ≠ 0 →
      sigTruediv A B = some [sget A 0 / sget B 0] ∧
      seqEq (smul [sget A 0 / sget B 0] B) A) ∧
    (2 ≤ max (slen A) (slen B) → sigTruediv A B = none) := by
  constructor
  · intro hA hB hA0 hB0
    have hsA : slen A = 1 := by
      rcases Nat.eq_zero_or_pos (slen A) with h | h
      · exact absurd (sget_of_slen_le A 0 (by omega)) hA0
      · omega
    have hsB : slen B = 1 := by
      rcases Nat.eq_zero_or_pos (slen B) with h | h
      · exact absurd (sget_of_slen_le B 0 (by omega)) hB0
      · omega
    have hv : sget A 0 / sget B 0 ≠ 0 := div_ne_zero hA0 hB0
    constructor
    · unfold sigTruediv
      have hmax : max (slen A) (slen B) = 1 := by omega
      rw [hmax, sigTdLoop_one]
      unfold sigTdStep
      rw [if_neg (by rwa [Nat.cast_zero])]
      show dropTrailingZeros
          ([] ++ [sget A ((0 : ℕ) : ℤ) / sget B ((0 : ℕ) : ℤ)]) =
        some [sget A 0 / sget B 0]
      rw [List.nil_append, Nat.cast_zero]
      exact dropTrailingZeros_single _ hv
    · apply seqEq_of_forall
      intro n
      rw [sget_smul, Finset.sum_eq_single 0]
      · rw [show ((0 : ℕ) : ℤ) = (0 : ℤ) from rfl, sget_single, if_pos rfl,
          sub_zero]
        match n with
        | 0 =>
            rw [Nat.cast_zero, div_mul_cancel₀ _ hB0]
        | m + 1 =>
            rw [sget_of_slen_le B (((m + 1 : ℕ) : ℤ)) (by push_cast; omega),
              sget_of_slen_le A (((m + 1 : ℕ) : ℤ)) (by push_cast; omega),
              mul_zero]
      · intro k hk hk0
        rw [sget_single, if_neg (by omega), zero_mul]
      · intro h
        exact absurd (Finset.mem_range.mpr (by omega)) h
  · exact sigTruediv_crash A B

/-- Witness for C4 (amended): the length-1 round trip at `A = [3]`,
`B = [2]`, and the crash at `A = [1,1]`, `B = [1]`. -/
theorem c4_witness :
    ((slen [3] ≤ 1) ∧ (slen [2] ≤ 1) ∧ (sget [3] 0 ≠ 0) ∧ (sget [2] 0 ≠ 0) ∧
      (sigTruediv [3] [2] = some [sget [3] 0 / sget [2] 0] ∧
       seqEq (smul [sget [3] 0 / sget [2] 0] [2]) [3])) ∧
    ((2 ≤ max (slen [1, 1]) (slen [1])) ∧ sigTruediv [1, 1] [1] = none) := by
  have h1 : slen ([3] : List ℚ) ≤ 1 := by norm_num [slen]
  have h2 : slen ([2] : List ℚ) ≤ 1 := by norm_num [slen]
  have h3 : sget ([3] : List ℚ) 0 ≠ 0 := by norm_num [sget_eq_sgetL, sgetL]
  have h4 : sget ([2] : List ℚ) 0 ≠ 0 := by norm_num [sget_eq_sgetL, sgetL]
  have h5 : 2 ≤ max (slen ([1, 1] : List ℚ)) (slen ([1] : List ℚ)) := by
    norm_num [slen]
  exact ⟨⟨h1, h2, h3, h4, (c4_amended [3] [2]).1 h1 h2 h3 h4⟩,
    ⟨h5, (c4_amended [1, 1] [1]).2 h5⟩⟩

/-- C8: whenever the divisor's leading coefficient is 0, Sequence division
and both Signature division variants fail at the point of the offending
operation (the source raises Python's built-in `ZeroDivisionError`
synchronously there; `DivisionUndefinedError` is the spec's name for this
failure). -/
theorem c8_division_errors (a b : List ℚ) (hb : sget b 0 = 0) :
    seqDiv a b = none ∧ sigFloordiv a b = none ∧ sigTruediv a b = none :=
  ⟨seqDiv_zero_head a b hb, sigFloordiv_zero_head a b hb,
   sigTruediv_zero_head a b hb⟩

/-- Witness for C8 at `a = [1,2]`, `b = [0,3]`. -/
theorem c8_witness :
    (sget [0, 3] 0 = 0) ∧
    (seqDiv [1, 2] [0, 3] = none ∧ sigFloordiv [1, 2] [0, 3] = none ∧
     sigTruediv [1, 2] [0, 3] = none) := by
  have hb : sget ([0, 3] : List ℚ) 0 = 0 := by norm_num [sget_eq_sgetL, sgetL]
  exact ⟨hb, c8_division_errors [1, 2] [0, 3] hb⟩

/-! ## Lemmas: the `Block` layer -/

/-- C10: an index assignment outside the logical range is a silent no-op
(it raises no error and changes nothing); since a stored single zero has
logical length 0, `Seq([0])[0] = v` does nothing, and consequently
`Block.identity(1)` stays the all-zero matrix `[[0]]` instead of `[[1]]`. -/
theorem c10_setitem_noop (s : List ℚ) (k : ℤ) (v : ℚ)
    (h : k < 0 ∨ (slen s : ℤ) ≤ k) :
    sset s k v = s ∧
    (∀ w : ℚ, sset [0] 0 w = [0]) ∧
    (blockIdentity 1).rows = [[0]] := by
  refine ⟨?_, ?_, ?_⟩
  · unfold sset
    rw [if_neg (by omega)]
  · intro w
    unfold sset
    rw [slen_zero_list, if_neg (by norm_num)]
  · have h1 : sset (List.replicate 1 (0 : ℚ)) ((0 : ℕ) : ℤ) 1 = [0] := by
      rw [show List.replicate 1 (0 : ℚ) = [0] from rfl]
      unfold sset
      rw [slen_zero_list, if_neg (by norm_num)]
    show (List.range 1).map
        (fun n : ℕ => sset (List.replicate 1 0) (n : ℤ) 1) = [[0]]
    rw [show List.range 1 = [0] from rfl, List.map_cons, List.map_nil, h1]

/-- Witness for C10 at `s = [1,2]`, `k = 5`, `v = 7`. -/
theorem c10_witness :
    ((5 : ℤ) < 0 ∨ (slen [1, 2] : ℤ) ≤ 5) ∧ sset [1, 2] 5 7 = [1, 2] := by
  have h : (5 : ℤ) < 0 ∨ (slen ([1, 2] : List ℚ) : ℤ) ≤ 5 :=
    Or.inr (by norm_num [slen])
  exact ⟨h, (c10_setitem_noop [1, 2] 5 7 h).1⟩

theorem blockPow_foldl (M : Block) (n : ℕ) :
    (List.range n).foldl (fun out _ => blockMul out M) (mkBlock M.rows) =
      blockIter M n := by
  induction n with
  | zero => rfl
  | succ m ih =>
      rw [List.range_succ, List.foldl_append]
      show blockMul ((List.range m).foldl _ (mkBlock M.rows)) M = _
      rw [ih]
      rfl

/-- C7 (amended): `M ** 0` is the identity Block of size `len(M)`, and for
`n ≥ 1`, `M ** n` performs `n` multiplications by `M` starting from a
reconstructed copy of `M` — i.e. it is the `(n+1)`-fold matrix product of
`M` with itself, so `M ** 1 == M * M`, not `M`. -/
theorem c7_amended (M : Block) (n : ℕ) :
    blockPow M 0 = blockIdentity M.rows.length ∧
    (1 ≤ n → blockPow M n = blockIter M n) := by
  constructor
  · unfold blockPow
    rw [if_pos rfl]
  · intro hn
    unfold blockPow
    rw [if_neg (by omega), blockPow_foldl]

/-- Witness for C7 (amended) at `M = Block.power([1,1], 2)`, `n = 1`. -/
theorem c7_witness :
    blockPow (blockPower [1, 1] 2) 0 =
      blockIdentity (blockPower [1, 1] 2).rows.length ∧
    ((1 : ℕ) ≤ 1 ∧
      blockPow (blockPower [1, 1] 2) 1 = blockIter (blockPower [1, 1] 2) 1) :=
  ⟨(c7_amended (blockPower [1, 1] 2) 1).1,
   ⟨by norm_num, (c7_amended (blockPower [1, 1] 2) 1).2 (by norm_num)⟩⟩

set_option maxRecDepth 8000 in
/-- Counterexample to C7 as stated: for the power triangle
`M = Block.power([1,1], 2)`, `M ** 1` is `M * M`, whose entry `(1, 0)` is
2, while `M`'s entry `(1, 0)` is 1 — so `M ** 1 ≠ M`. -/
theorem c7_counterexample :
    sget (bget (blockPow (blockPower [1, 1] 2) 1) 1) 0 ≠
      sget (bget (blockPower [1, 1] 2) 1) 0 := by
  norm_num [blockPow, blockIter, blockMul, blockPower, mkBlock, bsetEntry, ptRow,
    bget, sset, sget_eq_sgetL, sgetL, slen, smul, std_l, Finset.sum_range_succ,
    Finset.sum_range_zero, List.range_succ, List.range_zero, List.set,
    List.replicate]

theorem slen_of_length_ge_two (s : List ℚ) (h : 2 ≤ s.length) :
    slen s = s.length := by
  unfold slen
  rw [if_neg]
  intro hc
  omega

theorem foldl_sset_spec (L : ℕ) (hL : 2 ≤ L) (f : ℕ → ℚ) (m : ℕ) (hm : m ≤ L) :
    ((List.range m).foldl (fun out (n : ℕ) => sset out (n : ℤ) (f n))
      (List.replicate L (0 : ℚ))).length = L ∧
    ∀ j : ℕ, j < L →
      ((List.range m).foldl (fun out (n : ℕ) => sset out (n : ℤ) (f n))
        (List.replicate L (0 : ℚ))).getD j 0 = if j < m then f j else 0 := by
  induction m with
  | zero =>
      refine ⟨by simp, fun j hj => ?_⟩
      rw [if_neg (by omega)]
      show (List.replicate L (0 : ℚ)).getD j 0 = 0
      rw [List.getD_eq_getElem _ _ (by simpa using hj)]
      simp
  | succ m ih =>
      obtain ⟨ihlen, ihget⟩ := ih (by omega)
      have hstep : (List.range (m + 1)).foldl
          (fun out (n : ℕ) => sset out (n : ℤ) (f n))
          (List.replicate L (0 : ℚ)) =
          sset ((List.range m).foldl (fun out (n : ℕ) => sset out (n : ℤ) (f n))
            (List.replicate L (0 : ℚ))) (m : ℤ) (f m) := by
        rw [List.range_succ, List.foldl_append]
        rfl
      set prev := (List.range m).foldl (fun out (n : ℕ) => sset out (n : ℤ) (f n))
        (List.replicate L (0 : ℚ)) with hprev
      have hslen : slen prev = L := by
        rw [slen_of_length_ge_two _ (by rw [ihlen]; omega), ihlen]
      have hsset : sset prev (m : ℤ) (f m) = prev.set m (f m) := by
        unfold sset
        rw [hslen, if_pos ⟨by omega, by omega⟩, Int.toNat_natCast]
      constructor
      · rw [hstep, hsset, List.length_set, ihlen]
      · intro j hj
        rw [hstep, hsset]
        by_cases hjm : j = m
        · subst hjm
          rw [List.getD_eq_getElem _ _ (by rw [List.length_set, ihlen]; omega),
            List.getElem_set_self, if_pos (by omega)]
        · rw [List.getD_eq_getElem _ _ (by rw [List.length_set, ihlen]; omega),
            List.getElem_set_ne (by omega),
            ← List.getD_eq_getElem prev 0 (by rw [ihlen]; omega), ihget j hj]
          by_cases hjm2 : j < m
          · rw [if_pos hjm2, if_pos (by omega)]
          · rw [if_neg hjm2, if_neg (by omega)]

theorem blockF_sget (B : Block) (a : ℕ) (g : List ℚ)
    (hL : 2 ≤ B.rows.length) (n : ℕ) (hn : n < B.rows.length) :
    sget (blockF B a g) (n : ℤ) =
      ∑ k ∈ Finset.range (n + 1),
        sget (bget B ((n : ℤ) - (a : ℤ) * (k : ℤ))) (k : ℤ) *
          sget (seq_f g B.rows.length) ((n : ℤ) - (a : ℤ) * (k : ℤ)) := by
  have hform : blockF B a g =
      (List.range B.rows.length).foldl
        (fun out (n : ℕ) => sset out (n : ℤ)
          ((fun n : ℕ => ∑ k ∈ Finset.range (n + 1),
            sget (bget B ((n : ℤ) - (a : ℤ) * (k : ℤ))) (k : ℤ) *
              sget (seq_f g B.rows.length) ((n : ℤ) - (a : ℤ) * (k : ℤ))) n))
        (List.replicate B.rows.length (0 : ℚ)) := rfl
  obtain ⟨hlen, hget⟩ := foldl_sset_spec B.rows.length hL
    (fun n : ℕ => ∑ k ∈ Finset.range (n + 1),
      sget (bget B ((n : ℤ) - (a : ℤ) * (k : ℤ))) (k : ℤ) *
        sget (seq_f g B.rows.length) ((n : ℤ) - (a : ℤ) * (k : ℤ)))
    B.rows.length (le_refl _)
  rw [hform, sget_nat, hlen, if_pos hn, hget n hn, if_pos (by omega)]

/-- Counterexample to C2 as stated: for the single-row block
`Block.power([1,1], 1)` (one row `[1]`), the antidiagonal sum formula
gives 1 at `n = 0`, but `Block.f` returns the stored `[0]` because
`out[0] = _sum` is a silent no-op on `Seq([0])` (logical length 0). -/
theorem c2_counterexample :
    ¬ (sget (blockF (blockPower [1, 1] 1) 1 [1]) 0 =
        ∑ k ∈ Finset.range 1,
          sget (bget (blockPower [1, 1] 1) ((0 : ℤ) - (1 : ℤ) * (k : ℤ))) (k : ℤ) *
            sget (seq_f [1] (blockPower [1, 1] 1).rows.length)
              ((0 : ℤ) - (1 : ℤ) * (k : ℤ))) := by
  norm_num [blockF, blockPower, mkBlock, ptRow, bget, sset, sget_eq_sgetL, sgetL,
    slen, seq_f, fBuild, smul, std_l, Finset.sum_range_succ, Finset.sum_range_zero,
    List.range_succ, List.range_zero, List.set]

set_option maxRecDepth 4000 in
theorem blockF_fib : blockF (blockPower [1, 1] 5) 1 [1] = [1, 1, 2, 3, 5] := by
  norm_num [blockF, blockPower, mkBlock, ptRow, bget, sset, sget_eq_sgetL, sgetL,
    slen, seq_f, fBuild, smul, std_l, Finset.sum_range_succ, Finset.sum_range_zero,
    List.range_succ, List.range_zero, List.set]

/-- C2 (amended): for every Block with at least 2 rows, every aeration
`a` and convolution signature `g`, output coefficient `n < size` of
`Block.f` equals `Σ_{k=0}^{n} row[n-a·k][k] · g_f[n-a·k]` with
`g_f = g.f(size)`; for a single-row block the index assignment `out[n]`
is a silent no-op, so the output stays `[0]`.  In particular the plain
antidiagonal sum of the power triangle of `[1,1]` of size 5 is
`[1,1,2,3,5] = Seq([1,1]).f(5)`. -/
theorem c2_amended :
    (∀ (B : Block) (a : ℕ) (g : List ℚ), 2 ≤ B.rows.length →
      ∀ n : ℕ, n < B.rows.length →
        sget (blockF B a g) (n : ℤ) =
          ∑ k ∈ Finset.range (n + 1),
            sget (bget B ((n : ℤ) - (a : ℤ) * (k : ℤ))) (k : ℤ) *
              sget (seq_f g B.rows.length) ((n : ℤ) - (a : ℤ) * (k : ℤ))) ∧
    blockF (blockPower [1, 1] 5) 1 [1] = [1, 1, 2, 3, 5] ∧
    blockF (blockPower [1, 1] 5) 1 [1] = seq_f [1, 1] 5 := by
  refine ⟨fun B a g hL n hn => blockF_sget B a g hL n hn, blockF_fib, ?_⟩
  rw [blockF_fib, seq_f_fib]

/-- Witness for C2 (amended) at `B = Block.power([1,1], 5)`, `a = 1`,
`g = [1]`, `n = 4`. -/
theorem c2_witness :
    (2 ≤ (blockPower [1, 1] 5).rows.length ∧ 4 < (blockPower [1, 1] 5).rows.length ∧
      sget (blockF (blockPower [1, 1] 5) 1 [1]) ((4 : ℕ) : ℤ) =
        ∑ k ∈ Finset.range (4 + 1),
          sget (bget (blockPower [1, 1] 5) (((4 : ℕ) : ℤ) - (1 : ℤ) * (k : ℤ))) (k : ℤ) *
            sget (seq_f [1] (blockPower [1, 1] 5).rows.length)
              (((4 : ℕ) : ℤ) - (1 : ℤ) * (k : ℤ))) ∧
    blockF (blockPower [1, 1] 5) 1 [1] = [1, 1, 2, 3, 5] := by
  have h2 : 2 ≤ (blockPower [1, 1] 5).rows.length := by
    norm_num [blockPower, mkBlock]
  have h4 : 4 < (blockPower [1, 1] 5).rows.length := by
    norm_num [blockPower, mkBlock]
  exact ⟨⟨h2, h4, c2_amended.1 (blockPower [1, 1] 5) 1 [1] h2 4 h4⟩, c2_amended.2.1⟩

end SNR
